import Mathlib

/-!
Verification of the nucleation-site subsystem of `sciml/op_lib/nucleation.py`.

Fields (numpy 2-D arrays built by elementwise operations on coordinate grids)
are embedded as functions of the grid-point coordinates `x y : ℝ`, with `EReal`
as the value type so that the `-np.inf` initialisation of `dfun_init` has an
exact counterpart (`⊥`).  Arrays that are indexed by integer subscripts
(`dfun[y_i, x_i]` in `tag_renucleation`) are embedded as `List (List ℝ)` with
numpy indexing semantics: a negative index wraps once from the end, an index
outside `[-len, len)` is an error (`none`).  Counters are naturals; site lists
are association lists pairing each site with its per-site data, mirroring the
index-aligned numpy arrays.
-/

/-- Embedding of `seed_radius * np.cos(np.pi/4)`, the vertical offset of a seed
center above its site (`seed_height` in the source). -/
noncomputable def seedHeight (seed_radius : ℝ) : ℝ :=
  seed_radius * Real.cos (Real.pi / 4)

/-- Embedding of `np.sqrt((x_grid - seed_x)**2 + (y_grid - seed_y)**2)`:
the Euclidean distance from the grid point `(x, y)` to `(sx, sy)`. -/
noncomputable def euclid (x y sx sy : ℝ) : ℝ :=
  Real.sqrt ((x - sx) ^ 2 + (y - sy) ^ 2)

/-- Embedding of `interim_dfun = seed_radius - np.sqrt(...)` at one grid point:
the circular seed contribution of the site `(sx, sy)` (center offset applied
inside, as in the source: `seed_y = htr_points_xy[1] + seed_height`). -/
noncomputable def seedContrib (seed_radius sx sy x y : ℝ) : ℝ :=
  seed_radius - euclid x y sx (sy + seedHeight seed_radius)

/-- Embedding of `dfun_init`: the field starts at `-np.inf` (`⊥ : EReal`) and
each site's circular contribution is folded in with `np.maximum`. -/
noncomputable def dfun_init (sites : List (ℝ × ℝ)) (seed_radius : ℝ)
    (x y : ℝ) : EReal :=
  sites.foldl
    (fun acc s => max acc ((seedContrib seed_radius s.1 s.2 x y : ℝ) : EReal))
    ⊥

/-- Embedding of `renucleate`.  Each list entry carries one site together with
its sampled field value `dfun_sites[i]` and its counter `liquid_cover_iters[i]`
(the numpy arrays are index-aligned, so the zipped list is faithful).  A site
with `dfun_sites[i] < 0 and liquid_cover_iters[i] >= 4` max-composes its seed
contribution divided by `dfun_scale` into the current field and has its counter
reset to `0`; any other site leaves both untouched. -/
noncomputable def renucleate (seed_radius dfun_scale : ℝ) :
    List ((ℝ × ℝ) × ℝ × ℕ) → (ℝ → ℝ → EReal) → (ℝ → ℝ → EReal) × List ℕ
  | [], curr => (curr, [])
  | z :: rest, curr =>
    if z.2.1 < 0 ∧ 4 ≤ z.2.2 then
      let curr' := fun x y =>
        max (curr x y)
          ((seedContrib seed_radius z.1.1 z.1.2 x y / dfun_scale : ℝ) : EReal)
      let p := renucleate seed_radius dfun_scale rest curr'
      (p.1, 0 :: p.2)
    else
      let p := renucleate seed_radius dfun_scale rest curr
      (p.1, z.2.2 :: p.2)

/-- One step of the fold describing the field produced by `renucleate`: a
triggering site max-composes its scaled contribution, the rest do nothing. -/
noncomputable def renucStep (seed_radius dfun_scale x y : ℝ)
    (acc : EReal) (z : (ℝ × ℝ) × ℝ × ℕ) : EReal :=
  if z.2.1 < 0 ∧ 4 ≤ z.2.2 then
    max acc ((seedContrib seed_radius z.1.1 z.1.2 x y / dfun_scale : ℝ) : EReal)
  else acc

lemma renucleate_eq (seed_radius dfun_scale : ℝ)
    (zs : List ((ℝ × ℝ) × ℝ × ℕ)) (curr : ℝ → ℝ → EReal) :
    renucleate seed_radius dfun_scale zs curr =
      (fun x y => zs.foldl (renucStep seed_radius dfun_scale x y) (curr x y),
       zs.map fun z => if z.2.1 < 0 ∧ 4 ≤ z.2.2 then 0 else z.2.2) := by
  induction zs generalizing curr with
  | nil => simp [renucleate]
  | cons z rest ih =>
    by_cases h : z.2.1 < 0 ∧ 4 ≤ z.2.2
    · simp only [renucleate, if_pos h, ih, List.map_cons, List.foldl_cons]
      refine Prod.ext ?_ ?_
      · funext x y
        simp [renucStep, if_pos h]
      · simp [if_pos h]
    · simp only [renucleate, if_neg h, ih, List.map_cons, List.foldl_cons]
      refine Prod.ext ?_ ?_
      · funext x y
        simp [renucStep, if_neg h]
      · simp [if_neg h]

/-- Claim C4: `dfun_init` yields, at every grid point, the maximum over all
sites of `seed_radius - euclidean_distance(grid_point, seed_center)`, starting
from negative infinity: with no sites every value is `⊥`; every site's
contribution is dominated by the field; and at a nonempty site list the field
value is attained by some site's contribution. -/
theorem dfun_init_is_max_over_sites (sites : List (ℝ × ℝ)) (seed_radius x y : ℝ) :
    (sites = [] → dfun_init sites seed_radius x y = ⊥) ∧
    (∀ s ∈ sites,
      ((seedContrib seed_radius s.1 s.2 x y : ℝ) : EReal) ≤
        dfun_init sites seed_radius x y) ∧
    (sites ≠ [] → ∃ s ∈ sites,
      dfun_init sites seed_radius x y =
        ((seedContrib seed_radius s.1 s.2 x y : ℝ) : EReal)) := by
  have key : ∀ (l : List (ℝ × ℝ)) (b : EReal),
      (b ≤ l.foldl
        (fun acc s => max acc ((seedContrib seed_radius s.1 s.2 x y : ℝ) : EReal)) b) ∧
      (∀ s ∈ l,
        ((seedContrib seed_radius s.1 s.2 x y : ℝ) : EReal) ≤
          l.foldl (fun acc s => max acc ((seedContrib seed_radius s.1 s.2 x y : ℝ) : EReal)) b) ∧
      (l.foldl (fun acc s => max acc ((seedContrib seed_radius s.1 s.2 x y : ℝ) : EReal)) b = b ∨
        ∃ s ∈ l, l.foldl
          (fun acc s => max acc ((seedContrib seed_radius s.1 s.2 x y : ℝ) : EReal)) b =
            ((seedContrib seed_radius s.1 s.2 x y : ℝ) : EReal)) := by
    intro l
    induction l with
    | nil => simp
    | cons a t ih =>
      intro b
      refine ⟨?_, ?_, ?_⟩
      · calc b ≤ max b ((seedContrib seed_radius a.1 a.2 x y : ℝ) : EReal) := le_max_left _ _
          _ ≤ _ := by
            simpa using (ih (max b ((seedContrib seed_radius a.1 a.2 x y : ℝ) : EReal))).1
      · intro s hs
        rcases List.mem_cons.mp hs with h | h
        · subst h
          calc ((seedContrib seed_radius s.1 s.2 x y : ℝ) : EReal) ≤
              max b ((seedContrib seed_radius s.1 s.2 x y : ℝ) : EReal) := le_max_right _ _
            _ ≤ _ := by
              simpa using (ih (max b ((seedContrib seed_radius s.1 s.2 x y : ℝ) : EReal))).1
        · simpa using (ih (max b ((seedContrib seed_radius a.1 a.2 x y : ℝ) : EReal))).2.1 s h
      · rcases (ih (max b ((seedContrib seed_radius a.1 a.2 x y : ℝ) : EReal))).2.2 with h | ⟨s, hs, h⟩
        · rcases max_cases b ((seedContrib seed_radius a.1 a.2 x y : ℝ) : EReal) with
            ⟨hm, _⟩ | ⟨hm, _⟩
          · left
            simpa [hm] using h
          · right
            exact ⟨a, List.mem_cons_self _ _, by simpa [hm] using h⟩
        · right
          exact ⟨s, List.mem_cons_of_mem _ hs, by simpa using h⟩
  refine ⟨fun h => by simp [dfun_init, h], ?_, ?_⟩
  · intro s hs
    exact (key sites ⊥).2.1 s hs
  · intro hne
    rcases (key sites ⊥).2.2 with h | h
    · cases sites with
      | nil => exact absurd rfl hne
      | cons a t =>
        exfalso
        have hle := (key (a :: t) ⊥).2.1 a (List.mem_cons_self _ _)
        rw [h] at hle
        exact (EReal.coe_ne_bot _) (le_bot_iff.mp hle)
    · exact h

/-- Claim C7: the field initialised from a pair of sites is, at every grid
point, the pointwise maximum of the two fields initialised from each single
site independently. -/
theorem dfun_init_pair_is_pointwise_max (s₁ s₂ : ℝ × ℝ) (seed_radius x y : ℝ) :
    dfun_init [s₁, s₂] seed_radius x y =
      max (dfun_init [s₁] seed_radius x y) (dfun_init [s₂] seed_radius x y) := by
  simp only [dfun_init, List.foldl_cons, List.foldl_nil]
  rw [max_eq_right (bot_le : (⊥ : EReal) ≤ _), max_eq_right (bot_le : (⊥ : EReal) ≤ _)]

/-- Claim C1: `renucleate` max-composes into the current field, site by site in
order, the scaled seed contribution of exactly the sites with
`dfun_sites[i] < 0` and `liquid_cover_iters[i] >= 4`, and the returned counter
array has `0` at every triggering site and the old counter at every other
site (non-triggering sites cause no field update and no counter reset). -/
theorem renucleate_trigger_characterisation (seed_radius dfun_scale : ℝ)
    (zs : List ((ℝ × ℝ) × ℝ × ℕ)) (curr : ℝ → ℝ → EReal) :
    ((renucleate seed_radius dfun_scale zs curr).1 =
      fun x y => zs.foldl (renucStep seed_radius dfun_scale x y) (curr x y)) ∧
    (∀ i : ℕ, (renucleate seed_radius dfun_scale zs curr).2.get? i =
      (zs.get? i).map fun z => if z.2.1 < 0 ∧ 4 ≤ z.2.2 then 0 else z.2.2) := by
  rw [renucleate_eq]
  refine ⟨rfl, ?_⟩
  intro i
  simp [List.get?_map]

/-- Claim C5: when no site satisfies the trigger condition, `renucleate`
returns the input field unchanged and every site's counter unchanged. -/
theorem renucleate_no_trigger_frame (seed_radius dfun_scale : ℝ)
    (zs : List ((ℝ × ℝ) × ℝ × ℕ)) (curr : ℝ → ℝ → EReal)
    (h : ∀ z ∈ zs, ¬(z.2.1 < 0 ∧ 4 ≤ z.2.2)) :
    (renucleate seed_radius dfun_scale zs curr).1 = curr ∧
    (renucleate seed_radius dfun_scale zs curr).2 = zs.map fun z => z.2.2 := by
  rw [renucleate_eq]
  constructor
  · funext x y
    simp only
    have : ∀ (l : List ((ℝ × ℝ) × ℝ × ℕ)) (b : EReal),
        (∀ z ∈ l, ¬(z.2.1 < 0 ∧ 4 ≤ z.2.2)) →
        l.foldl (renucStep seed_radius dfun_scale x y) b = b := by
      intro l
      induction l with
      | nil => intro b _; rfl
      | cons a t ih =>
        intro b hb
        rw [List.foldl_cons]
        have ha : ¬(a.2.1 < 0 ∧ 4 ≤ a.2.2) := hb a (List.mem_cons_self _ _)
        rw [show renucStep seed_radius dfun_scale x y b a = b from by
          simp [renucStep, if_neg ha]]
        exact ih b fun z hz => hb z (List.mem_cons_of_mem _ hz)
    exact this zs (curr x y) h
  · simp only
    exact List.map_congr_left fun z hz => by simp [if_neg (h z hz)]

/-- Witness for C5 at a concrete non-triggering input: one site whose sampled
value is nonnegative and one whose counter is below the threshold. -/
theorem renucleate_no_trigger_frame_witness :
    (renucleate 1 1 [(((0 : ℝ), (0 : ℝ)), (1 : ℝ), (5 : ℕ)),
        (((2 : ℝ), (0 : ℝ)), (-1 : ℝ), (3 : ℕ))]
      (fun _ _ => (0 : EReal))).1 = (fun _ _ => (0 : EReal)) ∧
    (renucleate 1 1 [(((0 : ℝ), (0 : ℝ)), (1 : ℝ), (5 : ℕ)),
        (((2 : ℝ), (0 : ℝ)), (-1 : ℝ), (3 : ℕ))]
      (fun _ _ => (0 : EReal))).2 =
      [(((0 : ℝ), (0 : ℝ)), (1 : ℝ), (5 : ℕ)),
        (((2 : ℝ), (0 : ℝ)), (-1 : ℝ), (3 : ℕ))].map (fun z => z.2.2) := by
  refine renucleate_no_trigger_frame 1 1 _ _ ?_
  intro z hz
  rcases List.mem_cons.mp hz with h | h
  · subst h; norm_num
  · rcases List.mem_cons.mp h with h | h
    · subst h; norm_num
    · simp at h

/-- Witness for C4 at concrete inputs: the empty site list gives `⊥` and a
one-site list attains its own contribution. -/
theorem dfun_init_is_max_over_sites_witness :
    dfun_init [] 1 0 0 = ⊥ ∧
    ∃ s ∈ [((0 : ℝ), (0 : ℝ))],
      dfun_init [((0 : ℝ), (0 : ℝ))] 1 0 0 =
        ((seedContrib 1 s.1 s.2 0 0 : ℝ) : EReal) :=
  ⟨(dfun_init_is_max_over_sites [] 1 0 0).1 rfl,
   (dfun_init_is_max_over_sites [((0 : ℝ), (0 : ℝ))] 1 0 0).2.2 (by simp)⟩

lemma dfun_init_single (sx sy seed_radius x y : ℝ) :
    dfun_init [(sx, sy)] seed_radius x y =
      ((seedContrib seed_radius sx sy x y : ℝ) : EReal) := by
  simp only [dfun_init, List.foldl_cons, List.foldl_nil]
  exact max_eq_right bot_le

/-- Claim C6: for a single site with `seed_radius = r`, the field is bounded by
`r` at every grid point, equals `r` at the seed center
`(sx, sy + r*cos(45°))` (so if the grid contains the center, the maximum over
the grid is exactly `r`, attained there), and its zero-level set is exactly the
set of points at Euclidean distance `r` from the seed center. -/
theorem dfun_init_single_seed_max_and_zero_set (grid : List (ℝ × ℝ))
    (sx sy r : ℝ) (hmem : (sx, sy + seedHeight r) ∈ grid) :
    (∀ p ∈ grid, dfun_init [(sx, sy)] r p.1 p.2 ≤ (r : EReal)) ∧
    dfun_init [(sx, sy)] r sx (sy + seedHeight r) = (r : EReal) ∧
    (∀ x y, dfun_init [(sx, sy)] r x y = (0 : EReal) ↔
      euclid x y sx (sy + seedHeight r) = r) := by
  refine ⟨?_, ?_, ?_⟩
  · intro p _
    rw [dfun_init_single]
    rw [EReal.coe_le_coe_iff]
    exact sub_le_self _ (Real.sqrt_nonneg _)
  · rw [dfun_init_single]
    have : euclid sx (sy + seedHeight r) sx (sy + seedHeight r) = 0 := by
      simp [euclid]
    simp [seedContrib, this]
  · intro x y
    rw [dfun_init_single]
    rw [show (0 : EReal) = ((0 : ℝ) : EReal) from rfl, EReal.coe_eq_coe_iff]
    rw [seedContrib, sub_eq_zero]
    exact eq_comm

/-- Witness for C6: one concrete site at the origin with radius `1`, a grid
consisting of the seed center itself; the field value there is exactly `1`. -/
theorem dfun_init_single_seed_witness :
    dfun_init [((0 : ℝ), (0 : ℝ))] 1 0 ((0 : ℝ) + seedHeight 1) =
      ((1 : ℝ) : EReal) :=
  (dfun_init_single_seed_max_and_zero_set [((0 : ℝ), (0 : ℝ) + seedHeight 1)]
    0 0 1 (by simp)).2.1

/-- Embedding of `np.searchsorted(a, v, side=left)` on a sorted axis: the
left insertion index of `v`, i.e. the number of entries strictly below `v`. -/
noncomputable def searchsorted (a : List ℝ) (v : ℝ) : ℕ :=
  a.countP fun c => decide (c < v)

/-- Embedding of numpy 1-D integer indexing `l[i]`: a negative index wraps
once from the end, an index outside `[-len l, len l)` raises (`none`). -/
def npGet1 {α : Type} (l : List α) (i : ℤ) : Option α :=
  if 0 ≤ i then l.get? i.toNat
  else if -(l.length : ℤ) ≤ i then l.get? ((l.length : ℤ) + i).toNat
  else none

/-- Embedding of numpy 2-D integer indexing `m[i, j]` (row `i`, column `j`). -/
def npGet2 {α : Type} (m : List (List α)) (i j : ℤ) : Option α :=
  (npGet1 m i).bind fun row => npGet1 row j

/-- Average of the four grid-cell corner values
`dfun[y_i, x_i]`, `dfun[y_i-1, x_i]`, `dfun[y_i, x_i-1]`, `dfun[y_i-1, x_i-1]`
surrounding a located cell, as computed inside `tag_renucleation`; `none` when
any of the four reads is out of range. -/
noncomputable def sampleAt (dfun : List (List ℝ)) (xi yi : ℤ) : Option ℝ :=
  match npGet2 dfun yi xi, npGet2 dfun (yi - 1) xi,
      npGet2 dfun yi (xi - 1), npGet2 dfun (yi - 1) (xi - 1) with
  | some a, some b, some c, some d => some ((a + b + c + d) / 4)
  | _, _, _, _ => none

/-- The per-site sample of `tag_renucleation`: locate the cell of the
vertically-offset seed center by left `searchsorted` on both axes, then
average the four surrounding corner values of `dfun`. -/
noncomputable def sampleSite (dfun : List (List ℝ)) (coordx coordy : List ℝ)
    (seed_radius sx sy : ℝ) : Option ℝ :=
  sampleAt dfun (searchsorted coordx sx)
    (searchsorted coordy (sy + seedHeight seed_radius))

/-- Embedding of `tag_renucleation`.  Each list entry pairs a site with its
counter `liquid_cover_iters[i]`.  The result pairs the per-site sampled field
values `dfun_sites` with the updated counters; it is `none` when any site's
corner read raises an index error. -/
noncomputable def tag_renucleation (dfun : List (List ℝ))
    (coordx coordy : List ℝ) (seed_radius : ℝ) :
    List ((ℝ × ℝ) × ℕ) → Option (List ℝ × List ℕ)
  | [] => some ([], [])
  | z :: rest =>
    match sampleSite dfun coordx coordy seed_radius z.1.1 z.1.2 with
    | some d =>
      match tag_renucleation dfun coordx coordy seed_radius rest with
      | some (ds, its) =>
        some (d :: ds, (if d < 0 then z.2 + 1 else 0) :: its)
      | none => none
    | none => none

lemma sampleAt_of_corners (dfun : List (List ℝ)) (xi yi : ℤ) (a b c e : ℝ)
    (h1 : npGet2 dfun yi xi = some a) (h2 : npGet2 dfun (yi - 1) xi = some b)
    (h3 : npGet2 dfun yi (xi - 1) = some c)
    (h4 : npGet2 dfun (yi - 1) (xi - 1) = some e) :
    sampleAt dfun xi yi = some ((a + b + c + e) / 4) := by
  unfold sampleAt
  rw [h1, h2, h3, h4]

/-- Claim C3: whenever `tag_renucleation` succeeds, the output arrays are
index-aligned with the input sites; each site's returned `dfun_sites[i]` is
the sample at the cell located by left `searchsorted` of `x_sites[i]` on
`coordx` and of `y_sites[i] + seed_radius*cos(45°)` on `coordy` — the
arithmetic mean of the four corner values `dfun[y_i, x_i]`, `dfun[y_i-1, x_i]`,
`dfun[y_i, x_i-1]`, `dfun[y_i-1, x_i-1]` — and each site's updated counter is
the old counter plus one when that mean is negative, and `0` otherwise. -/
theorem tag_renucleation_sample_and_counter (dfun : List (List ℝ))
    (coordx coordy : List ℝ) (seed_radius : ℝ) (zs : List ((ℝ × ℝ) × ℕ))
    (ds : List ℝ) (its : List ℕ)
    (h : tag_renucleation dfun coordx coordy seed_radius zs = some (ds, its)) :
    ds.length = zs.length ∧ its.length = zs.length ∧
    ∀ i : ℕ, ∀ z ∈ zs.get? i, ∀ d ∈ ds.get? i,
      sampleSite dfun coordx coordy seed_radius z.1.1 z.1.2 = some d ∧
      (∀ a b c e : ℝ,
        npGet2 dfun (searchsorted coordy (z.1.2 + seedHeight seed_radius))
          (searchsorted coordx z.1.1) = some a →
        npGet2 dfun ((searchsorted coordy (z.1.2 + seedHeight seed_radius) : ℤ) - 1)
          (searchsorted coordx z.1.1) = some b →
        npGet2 dfun (searchsorted coordy (z.1.2 + seedHeight seed_radius))
          ((searchsorted coordx z.1.1 : ℤ) - 1) = some c →
        npGet2 dfun ((searchsorted coordy (z.1.2 + seedHeight seed_radius) : ℤ) - 1)
          ((searchsorted coordx z.1.1 : ℤ) - 1) = some e →
        d = (a + b + c + e) / 4) ∧
      its.get? i = some (if d < 0 then z.2 + 1 else 0) := by
  induction zs generalizing ds its with
  | nil =>
    simp only [tag_renucleation, Option.some.injEq, Prod.mk.injEq] at h
    obtain ⟨hds, hits⟩ := h
    subst hds; subst hits
    refine ⟨rfl, rfl, ?_⟩
    intro i z hz
    simp at hz
  | cons z₀ rest ih =>
    rcases hs : sampleSite dfun coordx coordy seed_radius z₀.1.1 z₀.1.2 with _ | d₀
    · rw [tag_renucleation, hs] at h
      exact absurd h (by simp)
    · rw [tag_renucleation, hs] at h
      rcases ht : tag_renucleation dfun coordx coordy seed_radius rest with _ | p
      · rw [ht] at h
        exact absurd h (by simp)
      · obtain ⟨ds', its'⟩ := p
        rw [ht] at h
        simp only [Option.some.injEq, Prod.mk.injEq] at h
        obtain ⟨hds, hits⟩ := h
        subst hds; subst hits
        obtain ⟨hl1, hl2, htail⟩ := ih ds' its' ht
        refine ⟨by simp [hl1], by simp [hl2], ?_⟩
        intro i
        match i with
        | 0 =>
          intro z hz d hd
          simp only [List.get?_cons_zero, Option.mem_def, Option.some.injEq] at hz hd
          subst hz; subst hd
          refine ⟨hs, ?_, by simp⟩
          intro a b c e h1 h2 h3 h4
          have hsa := sampleAt_of_corners dfun _ _ a b c e h1 h2 h3 h4
          rw [sampleSite, hsa] at hs
          exact (Option.some_inj.mp hs).symm
        | Nat.succ j =>
          intro z hz d hd
          simp only [List.get?_cons_succ] at hz hd
          have := htail j z hz d hd
          simpa using this

lemma npGet1_isSome {α : Type} (l : List α) (i : ℤ)
    (h1 : -(l.length : ℤ) ≤ i) (h2 : i < l.length) :
    ∃ a, npGet1 l i = some a := by
  unfold npGet1
  by_cases h0 : 0 ≤ i
  · rw [if_pos h0]
    have hk : i.toNat < l.length := by omega
    exact ⟨l.get ⟨i.toNat, hk⟩, List.get?_eq_get hk⟩
  · rw [if_neg h0, if_pos h1]
    have hk : ((l.length : ℤ) + i).toNat < l.length := by omega
    exact ⟨l.get ⟨((l.length : ℤ) + i).toNat, hk⟩, List.get?_eq_get hk⟩

lemma npGet1_mem {α : Type} {l : List α} {i : ℤ} {a : α}
    (h : npGet1 l i = some a) : a ∈ l := by
  unfold npGet1 at h
  by_cases h0 : 0 ≤ i
  · rw [if_pos h0] at h
    exact List.get?_mem h
  · rw [if_neg h0] at h
    by_cases h1 : -(l.length : ℤ) ≤ i
    · rw [if_pos h1] at h
      exact List.get?_mem h
    · rw [if_neg h1] at h
      exact absurd h (by simp)

lemma npGet1_neg_one {α : Type} (l : List α) (h : 1 ≤ l.length) :
    npGet1 l (-1) = l.get? (l.length - 1) := by
  unfold npGet1
  rw [if_neg (by omega), if_pos (by omega)]
  congr 1
  omega

lemma npGet2_some (dfun : List (List ℝ)) (i j : ℤ) (w : ℕ)
    (hw : ∀ row ∈ dfun, row.length = w)
    (hi1 : -(dfun.length : ℤ) ≤ i) (hi2 : i < dfun.length)
    (hj1 : -(w : ℤ) ≤ j) (hj2 : j < w) :
    ∃ a, npGet2 dfun i j = some a := by
  obtain ⟨row, hrow⟩ := npGet1_isSome dfun i hi1 hi2
  have hlen : row.length = w := hw row (npGet1_mem hrow)
  obtain ⟨a, ha⟩ := npGet1_isSome row j (by rw [hlen]; exact hj1) (by rw [hlen]; exact hj2)
  refine ⟨a, ?_⟩
  rw [npGet2, hrow]
  simpa using ha

lemma sampleAt_some (dfun : List (List ℝ)) (xi yi : ℤ) (w : ℕ)
    (hw : ∀ row ∈ dfun, row.length = w)
    (hy1 : -(dfun.length : ℤ) ≤ yi - 1) (hy2 : yi < dfun.length)
    (hx1 : -(w : ℤ) ≤ xi - 1) (hx2 : xi < w) :
    ∃ v, sampleAt dfun xi yi = some v := by
  obtain ⟨a, ha⟩ := npGet2_some dfun yi xi w hw (by omega) hy2 (by omega) hx2
  obtain ⟨b, hb⟩ := npGet2_some dfun (yi - 1) xi w hw hy1 (by omega) (by omega) hx2
  obtain ⟨c, hc⟩ := npGet2_some dfun yi (xi - 1) w hw (by omega) hy2 hx1 (by omega)
  obtain ⟨e, he⟩ := npGet2_some dfun (yi - 1) (xi - 1) w hw hy1 (by omega) hx1 (by omega)
  exact ⟨(a + b + c + e) / 4, sampleAt_of_corners dfun xi yi a b c e ha hb hc he⟩

/-- Claim C8: with the site's cell indices `x_i`, `y_i` each in
`[1, len(axis)-1]` and `dfun` shaped like the grid, every corner access of
`tag_renucleation` is a valid in-bounds read and the sample succeeds; and when
a search lands at axis boundary `0` the reference code performs no validation
and raises no error — the `-1` corner index wraps to the last element of that
axis (last column when `x_i = 0`, last row when `y_i = 0`). -/
theorem tag_renucleation_corner_access (dfun : List (List ℝ))
    (coordx coordy : List ℝ) (seed_radius sx sy : ℝ)
    (hrows : dfun.length = coordy.length)
    (hcols : ∀ row ∈ dfun, row.length = coordx.length) :
    (1 ≤ searchsorted coordx sx → searchsorted coordx sx < coordx.length →
     1 ≤ searchsorted coordy (sy + seedHeight seed_radius) →
     searchsorted coordy (sy + seedHeight seed_radius) < coordy.length →
     ∃ v, sampleSite dfun coordx coordy seed_radius sx sy = some v) ∧
    (searchsorted coordx sx = 0 → 1 ≤ coordx.length →
     1 ≤ searchsorted coordy (sy + seedHeight seed_radius) →
     searchsorted coordy (sy + seedHeight seed_radius) < coordy.length →
     (∃ v, sampleSite dfun coordx coordy seed_radius sx sy = some v) ∧
     ∀ row ∈ dfun, npGet1 row (-1) = row.get? (row.length - 1)) ∧
    (searchsorted coordy (sy + seedHeight seed_radius) = 0 → 1 ≤ coordy.length →
     1 ≤ searchsorted coordx sx → searchsorted coordx sx < coordx.length →
     (∃ v, sampleSite dfun coordx coordy seed_radius sx sy = some v) ∧
     npGet1 dfun (-1) = dfun.get? (dfun.length - 1)) := by
  refine ⟨?_, ?_, ?_⟩
  · intro hx1 hx2 hy1 hy2
    exact sampleAt_some dfun _ _ coordx.length hcols
      (by omega) (by omega) (by omega) (by omega)
  · intro hx0 hw hy1 hy2
    constructor
    · refine sampleAt_some dfun _ _ coordx.length hcols
        (by omega) (by omega) ?_ ?_
      · rw [hx0]; push_cast; omega
      · rw [hx0]; push_cast; omega
    · intro row hrow
      exact npGet1_neg_one row (by rw [hcols row hrow]; exact hw)
  · intro hy0 hh hx1 hx2
    constructor
    · refine sampleAt_some dfun _ _ coordx.length hcols ?_ ?_ (by omega) (by omega)
      · rw [hy0]; push_cast; omega
      · rw [hy0]; push_cast; omega
    · exact npGet1_neg_one dfun (by omega)

/-- One simulation step of the renucleation loop for a single site: run the
Tagger (`tag_renucleation`) and then the Trigger (`renucleate`) on the
one-site state, recording the post-tag counter, whether the trigger condition
`dfun_sites[i] < 0 and liquid_cover_iters[i] >= 4` fired, the post-step
counter, and the updated field. -/
noncomputable def stepSite (dfun : List (List ℝ)) (coordx coordy : List ℝ)
    (seed_radius dfun_scale : ℝ) (site : ℝ × ℝ) (c : ℕ)
    (fld : ℝ → ℝ → EReal) : Option (ℕ × Bool × ℕ × (ℝ → ℝ → EReal)) :=
  match tag_renucleation dfun coordx coordy seed_radius [(site, c)] with
  | some ([d], [c1]) =>
    let p := renucleate seed_radius dfun_scale [(site, d, c1)] fld
    match p.2 with
    | [c2] => some (c1, decide (d < 0 ∧ 4 ≤ c1), c2, p.1)
    | _ => none
  | _ => none

/-- Iterated Tagger/Trigger steps for a single site: step `k` uses the
externally supplied field `dfuns k`, threading counter and field through `n`
consecutive steps and logging `(post-tag counter, fired, post-step counter)`
for each step. -/
noncomputable def runSite (dfuns : ℕ → List (List ℝ))
    (coordx coordy : List ℝ) (seed_radius dfun_scale : ℝ) (site : ℝ × ℝ) :
    ℕ → ℕ → ℕ → (ℝ → ℝ → EReal) →
      Option (List (ℕ × Bool × ℕ) × (ℝ → ℝ → EReal))
  | _, 0, _, fld => some ([], fld)
  | k, n + 1, c, fld =>
    match stepSite (dfuns k) coordx coordy seed_radius dfun_scale site c fld with
    | some (c1, f, c2, fld') =>
      match runSite dfuns coordx coordy seed_radius dfun_scale site
          (k + 1) n c2 fld' with
      | some (log, fldF) => some ((c1, f, c2) :: log, fldF)
      | none => none
    | none => none

lemma tag_renucleation_singleton (dfun : List (List ℝ))
    (coordx coordy : List ℝ) (seed_radius : ℝ) (site : ℝ × ℝ) (c : ℕ) (d : ℝ)
    (hs : sampleSite dfun coordx coordy seed_radius site.1 site.2 = some d) :
    tag_renucleation dfun coordx coordy seed_radius [(site, c)] =
      some ([d], [if d < 0 then c + 1 else 0]) := by
  simp [tag_renucleation, hs]

/-- Field after a trigger fires for one site: the old field max-composed with
the site's seed contribution divided by `dfun_scale`. -/
noncomputable def triggeredField (seed_radius dfun_scale : ℝ) (site : ℝ × ℝ)
    (fld : ℝ → ℝ → EReal) : ℝ → ℝ → EReal :=
  fun x y => max (fld x y)
    ((seedContrib seed_radius site.1 site.2 x y / dfun_scale : ℝ) : EReal)

lemma stepSite_eq (dfun : List (List ℝ)) (coordx coordy : List ℝ)
    (seed_radius dfun_scale : ℝ) (site : ℝ × ℝ) (c : ℕ)
    (fld : ℝ → ℝ → EReal) (d : ℝ)
    (hs : sampleSite dfun coordx coordy seed_radius site.1 site.2 = some d)
    (hd : d < 0) :
    stepSite dfun coordx coordy seed_radius dfun_scale site c fld =
      if 4 ≤ c + 1 then
        some (c + 1, true, 0, triggeredField seed_radius dfun_scale site fld)
      else some (c + 1, false, c + 1, fld) := by
  have htag := tag_renucleation_singleton dfun coordx coordy seed_radius site c d hs
  rw [if_pos hd] at htag
  unfold stepSite
  rw [htag]
  dsimp only
  rw [renucleate_eq]
  by_cases h4 : 4 ≤ c + 1
  · have hcond : d < 0 ∧ 4 ≤ c + 1 := ⟨hd, h4⟩
    rw [if_pos h4]
    simp only [List.map_cons, List.map_nil, if_pos hcond]
    simp [renucStep, hcond, triggeredField]
    rfl
  · have hcond : ¬(d < 0 ∧ 4 ≤ c + 1) := fun hc => h4 hc.2
    rw [if_neg h4]
    simp only [List.map_cons, List.map_nil, if_neg hcond]
    simp [renucStep, hcond, h4]

lemma runSite_zero (dfuns : ℕ → List (List ℝ)) (coordx coordy : List ℝ)
    (seed_radius dfun_scale : ℝ) (site : ℝ × ℝ) (k c : ℕ)
    (fld : ℝ → ℝ → EReal) :
    runSite dfuns coordx coordy seed_radius dfun_scale site k 0 c fld =
      some ([], fld) := rfl

lemma runSite_cons (dfuns : ℕ → List (List ℝ)) (coordx coordy : List ℝ)
    (seed_radius dfun_scale : ℝ) (site : ℝ × ℝ) (k n c c1 c2 : ℕ) (f : Bool)
    (fld fld' fldF : ℝ → ℝ → EReal) (log : List (ℕ × Bool × ℕ))
    (h : stepSite (dfuns k) coordx coordy seed_radius dfun_scale site c fld =
      some (c1, f, c2, fld'))
    (h2 : runSite dfuns coordx coordy seed_radius dfun_scale site
      (k + 1) n c2 fld' = some (log, fldF)) :
    runSite dfuns coordx coordy seed_radius dfun_scale site k (n + 1) c fld =
      some ((c1, f, c2) :: log, fldF) := by
  rw [runSite, h]
  dsimp only
  rw [h2]

/-- Claim C2: for one site whose sampled field value is negative on every one
of five Tagger/Trigger steps, starting from counter `0`: the post-tag counters
are `1, 2, 3, 4, 1` (so the counter reaches exactly `4` on the 4th Tagger
call), the trigger fires exactly once, on the 4th call and not earlier (in
particular not while the counter is `3`), and the post-step counter sequence
is `[1, 2, 3, 0, 1]`. -/
theorem single_site_five_negative_steps (dfuns : ℕ → List (List ℝ))
    (coordx coordy : List ℝ) (seed_radius dfun_scale : ℝ) (site : ℝ × ℝ)
    (fld0 : ℝ → ℝ → EReal)
    (hneg : ∀ k, k < 5 → ∃ d,
      sampleSite (dfuns k) coordx coordy seed_radius site.1 site.2 = some d ∧
      d < 0) :
    ∃ fldF, runSite dfuns coordx coordy seed_radius dfun_scale site 0 5 0 fld0 =
      some ([(1, false, 1), (2, false, 2), (3, false, 3), (4, true, 0),
        (1, false, 1)], fldF) := by
  obtain ⟨d0, h0, hd0⟩ := hneg 0 (by norm_num)
  obtain ⟨d1, h1, hd1⟩ := hneg 1 (by norm_num)
  obtain ⟨d2, h2, hd2⟩ := hneg 2 (by norm_num)
  obtain ⟨d3, h3, hd3⟩ := hneg 3 (by norm_num)
  obtain ⟨d4, h4, hd4⟩ := hneg 4 (by norm_num)
  have s0 := stepSite_eq (dfuns 0) coordx coordy seed_radius dfun_scale site 0
    fld0 d0 h0 hd0
  rw [if_neg (by norm_num)] at s0
  have s1 := stepSite_eq (dfuns 1) coordx coordy seed_radius dfun_scale site 1
    fld0 d1 h1 hd1
  rw [if_neg (by norm_num)] at s1
  have s2 := stepSite_eq (dfuns 2) coordx coordy seed_radius dfun_scale site 2
    fld0 d2 h2 hd2
  rw [if_neg (by norm_num)] at s2
  have s3 := stepSite_eq (dfuns 3) coordx coordy seed_radius dfun_scale site 3
    fld0 d3 h3 hd3
  rw [if_pos (by norm_num)] at s3
  have s4 := stepSite_eq (dfuns 4) coordx coordy seed_radius dfun_scale site 0
    (triggeredField seed_radius dfun_scale site fld0) d4 h4 hd4
  rw [if_neg (by norm_num)] at s4
  norm_num at s0 s1 s2 s3 s4
  exact ⟨triggeredField seed_radius dfun_scale site fld0,
    runSite_cons _ _ _ _ _ _ _ _ _ _ _ _ _ _ _ _ s0
      (runSite_cons _ _ _ _ _ _ _ _ _ _ _ _ _ _ _ _ s1
        (runSite_cons _ _ _ _ _ _ _ _ _ _ _ _ _ _ _ _ s2
          (runSite_cons _ _ _ _ _ _ _ _ _ _ _ _ _ _ _ _ s3
            (runSite_cons _ _ _ _ _ _ _ _ _ _ _ _ _ _ _ _ s4
              (runSite_zero _ _ _ _ _ _ _ _ _)))))⟩

/-- Radical-inverse digit loop in base `b` with explicit fuel (the fuel `n`
always suffices since `n/b` strictly decreases): accumulates
`acc + d₀·invb + d₁·invb/b + ...` over the base-`b` digits of `n`. -/
def radInvGo (b : ℕ) : ℕ → ℕ → ℚ → ℚ → ℚ
  | 0, _, _, acc => acc
  | fuel + 1, n, invb, acc =>
    if n = 0 then acc
    else radInvGo b fuel (n / b) (invb / b) (acc + ((n % b : ℕ) : ℚ) * invb)

/-- Modelled from the spec: the van der Corput radical inverse of `n` in base
`b`, the `n`-th term of the one-dimensional Halton subsequence.  It models the
`scipy.stats.qmc.Halton` low-discrepancy generator used by `heater_init`
(library code not part of this repository): a deterministic quasi-random
sequence whose points all lie in `[0, 1)`. -/
def radInv (b n : ℕ) : ℚ :=
  radInvGo b n n (1 / b) 0

lemma radInvGo_nonneg (b : ℕ) :
    ∀ fuel n : ℕ, ∀ invb acc : ℚ, 0 ≤ invb → 0 ≤ acc →
      0 ≤ radInvGo b fuel n invb acc := by
  intro fuel
  induction fuel with
  | zero => intro n invb acc _ ha; exact ha
  | succ f ih =>
    intro n invb acc hi ha
    rw [radInvGo]
    by_cases hn : n = 0
    · rw [if_pos hn]; exact ha
    · rw [if_neg hn]
      refine ih _ _ _ (by positivity) ?_
      have : (0 : ℚ) ≤ (n % b : ℕ) := by positivity
      nlinarith

lemma radInvGo_lt (b : ℕ) (hb : 1 ≤ b) :
    ∀ fuel n : ℕ, ∀ invb acc : ℚ, 0 < invb →
      radInvGo b fuel n invb acc < acc + (b : ℚ) * invb := by
  intro fuel
  induction fuel with
  | zero =>
    intro n invb acc hi
    rw [radInvGo]
    have : (0 : ℚ) < (b : ℚ) * invb := by
      have : (1 : ℚ) ≤ (b : ℚ) := by exact_mod_cast hb
      nlinarith
    linarith
  | succ f ih =>
    intro n invb acc hi
    rw [radInvGo]
    by_cases hn : n = 0
    · rw [if_pos hn]
      have : (1 : ℚ) ≤ (b : ℚ) := by exact_mod_cast hb
      nlinarith
    · rw [if_neg hn]
      have hb0 : (b : ℚ) ≠ 0 := by
        have : (1 : ℚ) ≤ (b : ℚ) := by exact_mod_cast hb
        linarith
      have hrec := ih (n / b) (invb / b) (acc + (n % b : ℕ) * invb) (by positivity)
      have hmod : ((n % b : ℕ) : ℚ) ≤ (b : ℚ) - 1 := by
        have : n % b < b := Nat.mod_lt n hb
        have : ((n % b : ℕ) : ℚ) < (b : ℚ) := by exact_mod_cast this
        have hint : ((n % b : ℕ) : ℚ) + 1 ≤ (b : ℚ) := by
          exact_mod_cast Nat.mod_lt n hb
        linarith
      have hdiv : (b : ℚ) * (invb / b) = invb := by
        field_simp
      nlinarith
  
lemma radInv_mem_Ico (b n : ℕ) (hb : 2 ≤ b) :
    0 ≤ radInv b n ∧ radInv b n < 1 := by
  have hb1 : 1 ≤ b := by omega
  have hb0 : (0 : ℚ) < (b : ℚ) := by
    have : (2 : ℚ) ≤ (b : ℚ) := by exact_mod_cast hb
    linarith
  constructor
  · exact radInvGo_nonneg b n n (1 / b) 0 (by positivity) le_rfl
  · have := radInvGo_lt b hb1 n n (1 / b) 0 (by positivity)
    have hbb : (b : ℚ) * (1 / b) = 1 := by field_simp
    rw [zero_add, hbb] at this
    exact this

/-- State of a `scipy.stats.qmc.Halton` generator object: the construction
seed and the position reached in the underlying sequence. -/
structure HaltonState where
  seed : ℕ
  index : ℕ

/-- Embedding of `qmc.Halton(d=2, seed=...)`: a freshly constructed generator
starts at the beginning of the sequence. -/
def qmcHalton (seed : ℕ) : HaltonState :=
  { seed := seed, index := 0 }

/-- Embedding of `halton_sequence.random(n)` for `d=2` (bases 2 and 3): the
next `n` points of the sequence, together with the advanced generator. -/
def haltonRandom (g : HaltonState) (n : ℕ) : List (ℚ × ℚ) × HaltonState :=
  ((List.range n).map fun i => (radInv 2 (g.index + i), radInv 3 (g.index + i)),
   { seed := g.seed, index := g.index + n })

/-- Embedding of `heater_init`: draw `num_sites` Halton points from a freshly
seeded generator (`seed=1`), place `x_sites` by affinely mapping the first
Halton coordinate onto `[xmin, xmax]`, and set every `y_sites` entry to the
fixed baseline `1e-13`. -/
noncomputable def heater_init (xmin xmax : ℝ) (num_sites : ℕ) :
    List ℝ × List ℝ :=
  let halton_sample := (haltonRandom (qmcHalton 1) num_sites).1
  (halton_sample.map fun u => xmin + ((u.1 : ℚ) : ℝ) * (xmax - xmin),
   halton_sample.map fun _ => (1e-13 : ℝ))

/-- Invocation of `heater_init` against an arbitrary ambient generator state:
the function constructs its own fixed-seed generator, so the ambient state is
neither read nor advanced. -/
noncomputable def heater_init_in_env (env : HaltonState) (xmin xmax : ℝ)
    (num_sites : ℕ) : (List ℝ × List ℝ) × HaltonState :=
  (heater_init xmin xmax num_sites, env)

/-- Claim C9: for `xmin ≤ xmax`, every x-site of `heater_init` lies in
`[xmin, xmax]`, every y-site equals the fixed baseline `1e-13`, and that
baseline is strictly positive (never exactly zero). -/
theorem heater_init_bounds (xmin xmax : ℝ) (num_sites : ℕ)
    (h : xmin ≤ xmax) :
    (∀ x ∈ (heater_init xmin xmax num_sites).1, xmin ≤ x ∧ x ≤ xmax) ∧
    (∀ y ∈ (heater_init xmin xmax num_sites).2, y = (1e-13 : ℝ)) ∧
    (0 : ℝ) < 1e-13 := by
  refine ⟨?_, ?_, by norm_num⟩
  · intro x hx
    simp only [heater_init, haltonRandom, qmcHalton, List.map_map,
      List.mem_map, List.mem_range, Function.comp] at hx
    obtain ⟨i, _, hxe⟩ := hx
    obtain ⟨hu0, hu1⟩ := radInv_mem_Ico 2 (0 + i) (by norm_num)
    have hu0' : (0 : ℝ) ≤ ((radInv 2 (0 + i) : ℚ) : ℝ) := by exact_mod_cast hu0
    have hu1' : ((radInv 2 (0 + i) : ℚ) : ℝ) ≤ 1 := by
      have : ((radInv 2 (0 + i) : ℚ) : ℝ) < 1 := by exact_mod_cast hu1
      linarith
    constructor
    · rw [← hxe]
      nlinarith
    · rw [← hxe]
      nlinarith
  · intro y hy
    simp only [heater_init, haltonRandom, qmcHalton, List.map_map,
      List.mem_map, List.mem_range, Function.comp] at hy
    obtain ⟨i, _, hye⟩ := hy
    exact hye.symm

/-- Witness for C9 at `xmin = 0`, `xmax = 1`, three sites. -/
theorem heater_init_bounds_witness :
    (∀ x ∈ (heater_init 0 1 3).1, (0 : ℝ) ≤ x ∧ x ≤ 1) ∧
    (∀ y ∈ (heater_init 0 1 3).2, y = (1e-13 : ℝ)) ∧ (0 : ℝ) < 1e-13 :=
  heater_init_bounds 0 1 3 (by norm_num)

/-- Claim C10: `heater_init` is deterministic — its result is the same across
any two invocations, whatever the ambient generator state of each call is
(the Halton generator is constructed afresh with the fixed seed `1` inside
every call), and equals the pure function of its arguments. -/
theorem heater_init_deterministic (env₁ env₂ : HaltonState)
    (xmin xmax : ℝ) (num_sites : ℕ) :
    (heater_init_in_env env₁ xmin xmax num_sites).1 =
      (heater_init_in_env env₂ xmin xmax num_sites).1 ∧
    (heater_init_in_env env₁ xmin xmax num_sites).1 =
      heater_init xmin xmax num_sites ∧
    (heater_init_in_env env₁ xmin xmax num_sites).2 = env₁ :=
  ⟨rfl, rfl, rfl⟩

lemma seedHeight_zero : seedHeight 0 = 0 := by
  simp [seedHeight]

lemma searchsorted_unit_half : searchsorted [(0 : ℝ), 1] (1 / 2) = 1 := by
  unfold searchsorted
  have h1 : ¬((1 : ℝ) < 1 / 2) := by norm_num
  have h0 : (0 : ℝ) < 1 / 2 := by norm_num
  simp only [List.countP_cons, List.countP_nil, decide_eq_true_eq]
  rw [if_neg h1, if_pos h0]

lemma searchsorted_unit_offset :
    searchsorted [(0 : ℝ), 1] (1 / 2 + seedHeight 0) = 1 := by
  rw [seedHeight_zero, add_zero]
  exact searchsorted_unit_half

lemma sample_example :
    sampleSite [[(-1 : ℝ), -1], [-1, -1]] [0, 1] [0, 1] 0 (1 / 2) (1 / 2) =
      some (-1) := by
  unfold sampleSite
  rw [searchsorted_unit_half, searchsorted_unit_offset]
  have h := sampleAt_of_corners [[(-1 : ℝ), -1], [-1, -1]]
    ((1 : ℕ) : ℤ) ((1 : ℕ) : ℤ) (-1) (-1) (-1) (-1) rfl rfl rfl rfl
  rw [h]
  norm_num

lemma tag_example :
    tag_renucleation [[(-1 : ℝ), -1], [-1, -1]] [0, 1] [0, 1] 0
      [(((1 : ℝ) / 2, (1 : ℝ) / 2), 0)] = some ([-1], [1]) := by
  have h := tag_renucleation_singleton [[(-1 : ℝ), -1], [-1, -1]] [0, 1] [0, 1]
    0 ((1 : ℝ) / 2, (1 : ℝ) / 2) 0 (-1) sample_example
  rw [if_pos (by norm_num)] at h
  simpa using h

/-- Witness for C3 at a concrete tagged site: the updated counter of the only
site is its old counter plus one, since the sampled mean is negative. -/
theorem tag_renucleation_sample_and_counter_witness :
    ([(1 : ℕ)]).get? 0 = some (if (-1 : ℝ) < 0 then 0 + 1 else 0) :=
  ((tag_renucleation_sample_and_counter [[(-1 : ℝ), -1], [-1, -1]] [0, 1]
    [0, 1] 0 [(((1 : ℝ) / 2, (1 : ℝ) / 2), 0)] [-1] [1] tag_example).2.2
    0 (((1 : ℝ) / 2, (1 : ℝ) / 2), 0) rfl (-1) rfl).2.2

/-- Witness for C2 at a concrete scenario: a uniformly `-1` field over a
2×2 grid, one site in the interior, radius `0`, five steps. -/
theorem single_site_five_negative_steps_witness :
    ∃ fldF, runSite (fun _ => [[(-1 : ℝ), -1], [-1, -1]]) [0, 1] [0, 1] 0 1
      ((1 : ℝ) / 2, (1 : ℝ) / 2) 0 5 0 (fun _ _ => (⊥ : EReal)) =
      some ([(1, false, 1), (2, false, 2), (3, false, 3), (4, true, 0),
        (1, false, 1)], fldF) :=
  single_site_five_negative_steps (fun _ => [[(-1 : ℝ), -1], [-1, -1]])
    [0, 1] [0, 1] 0 1 ((1 : ℝ) / 2, (1 : ℝ) / 2) (fun _ _ => (⊥ : EReal))
    (fun k _ => ⟨-1, sample_example, by norm_num⟩)

/-- Witness for C8 at a concrete in-bounds site: both searches land at index
`1` of a two-point axis, so the sample succeeds. -/
theorem tag_renucleation_corner_access_witness :
    ∃ v, sampleSite [[(-1 : ℝ), -1], [-1, -1]] [0, 1] [0, 1] 0 (1 / 2) (1 / 2) =
      some v := by
  have hcols : ∀ row ∈ [[(-1 : ℝ), -1], [-1, -1]],
      row.length = ([(0 : ℝ), 1]).length := by
    intro row hrow
    rcases List.mem_cons.mp hrow with h | h
    · subst h; rfl
    · rcases List.mem_cons.mp h with h | h
      · subst h; rfl
      · simp at h
  refine (tag_renucleation_corner_access [[(-1 : ℝ), -1], [-1, -1]] [0, 1]
    [0, 1] 0 (1 / 2) (1 / 2) rfl hcols).1 ?_ ?_ ?_ ?_
  · rw [searchsorted_unit_half]
  · rw [searchsorted_unit_half]
    norm_num
  · rw [searchsorted_unit_offset]
  · rw [searchsorted_unit_offset]
    norm_num
